import Mathlib

/-!
Shallow embedding of the LLTC4J export scripts
(`export_lltc4j.py`, `export_lltc4j_utb.py`, `list_tangled_commits.py`).

Modelling conventions:
- Python integers are `Int` (arbitrary precision, so no wrap-around).
- A hunk's `content` is modelled after `hunk.content.splitlines()` has been
  applied, i.e. as the list of diff lines; none of the verified behaviour
  depends on the splitting itself.
- A Python dict in insertion order is modelled as an association list.
- Code that can raise an exception returns `Option` (`none` = the exception
  propagates and the caller produces no result).
- Python list indexing (negative indices count from the end, out-of-range
  raises `IndexError`) is modelled by `pyIndex`.
-/

/-- Python `xs[i]` on a list of strings: nonnegative indices from the front,
negative indices from the end, `none` models `IndexError`. -/
def pyIndex (xs : List String) (i : Int) : Option String :=
  let j : Int := if i < 0 then (xs.length : Int) + i else i
  if 0 ≤ j ∧ j < (xs.length : Int) then xs.get? j.toNat else none

/-- Python `s.startswith(pre)`, via the underlying character lists. -/
def pyStartsWith (s pre : String) : Bool :=
  pre.data.isPrefixOf s.data

/-- Python `s.endswith(suf)`, via the underlying character lists. -/
def pyEndsWith (s suf : String) : Bool :=
  suf.data.isSuffixOf s.data

/-- Infix test on character lists (used for Python `needle in hay`). -/
def listIsInfix (needle : List Char) : List Char → Bool
  | [] => needle.isEmpty
  | c :: rest => needle.isPrefixOf (c :: rest) || listIsInfix needle rest

/-- Python `needle in hay` for strings (substring containment). -/
def pyInStr (needle hay : String) : Bool :=
  listIsInfix needle.data hay.data

/-- `LINE_LABELS_CODE_FIX` from `export_lltc4j.py`. -/
def LINE_LABELS_CODE_FIX : List String := ["bugfix"]

/-- `LINE_LABELS_CODE_NO_FIX` from `export_lltc4j.py`. -/
def LINE_LABELS_CODE_NO_FIX : List String := ["refactoring", "unrelated", "no_bugfix"]

/-- `LINE_LABELS_CODE = LINE_LABELS_CODE_FIX + LINE_LABELS_CODE_NO_FIX`. -/
def LINE_LABELS_CODE : List String := LINE_LABELS_CODE_FIX ++ LINE_LABELS_CODE_NO_FIX

/-- A hunk as used by the scripts: the relevant attributes of the
`pycoshark` `Hunk` model. `content` is the list of diff lines
(after `splitlines()`), `lines_verified` the label-to-offsets dict in
insertion order. -/
structure Hunk where
  old_start : Int
  new_start : Int
  old_lines : Int
  new_lines : Int
  content : List String
  lines_verified : List (String × List Int)
deriving DecidableEq

/-- One row of the ground-truth DataFrame built by `label_lines`:
columns `source`, `target`, `group`. -/
structure GroundTruthRecord where
  source : Option Int
  target : Option Int
  group : String
deriving DecidableEq

/-- The `group` computation of `label_lines` (`export_lltc4j.py` lines
153-158): `"bugfix"` for fix labels, `"nonbugfix"` for non-fix code labels,
otherwise the label itself (dead branch after the code-label filter). -/
def groupOf (label : String) : String :=
  if LINE_LABELS_CODE_FIX.contains label then "bugfix"
  else if LINE_LABELS_CODE_NO_FIX.contains label then "nonbugfix"
  else label

/-- Inner loop of `label_lines` (`export_lltc4j.py` lines 141-160): walk the
offsets of one `(label, offset_line_numbers)` entry, appending to the shared
`ground_truth` accumulator; `none` models the `IndexError` from
`hunk_content_by_line[i]`. -/
def accOffsets (h : Hunk) (label : String) (acc : List GroundTruthRecord) :
    List Int → Option (List GroundTruthRecord)
  | [] => some acc
  | i :: rest =>
    match pyIndex h.content i with
    | none => none
    | some line =>
      if pyStartsWith line "-" then
        accOffsets h label
          (acc ++ [⟨some (h.old_start + i), none, groupOf label⟩]) rest
      else if pyStartsWith line "+" then
        accOffsets h label
          (acc ++ [⟨none, some (h.new_start + i - h.old_lines), groupOf label⟩]) rest
      else
        accOffsets h label acc rest

/-- Middle loop of `label_lines` (`export_lltc4j.py` lines 137-139): walk
`hunk.lines_verified.items()`, skipping labels outside `LINE_LABELS_CODE`. -/
def accPairs (h : Hunk) (acc : List GroundTruthRecord) :
    List (String × List Int) → Option (List GroundTruthRecord)
  | [] => some acc
  | (label, offsets) :: rest =>
    if LINE_LABELS_CODE.contains label then
      match accOffsets h label acc offsets with
      | none => none
      | some acc₁ => accPairs h acc₁ rest
    else
      accPairs h acc rest

/-- Outer loop of `label_lines` (`export_lltc4j.py` lines 134-160): walk the
hunks, threading the shared `ground_truth` list. -/
def labelLinesAcc (acc : List GroundTruthRecord) :
    List Hunk → Option (List GroundTruthRecord)
  | [] => some acc
  | h :: rest =>
    match accPairs h acc h.lines_verified with
    | none => none
    | some acc₁ => labelLinesAcc acc₁ rest

/-- `label_lines` from `export_lltc4j.py`: the emitted row list (the
DataFrame construction adds only column names and dtypes). -/
def label_lines (hunks : List Hunk) : Option (List GroundTruthRecord) :=
  labelLinesAcc [] hunks

/-- Inner loop of `export_ground_truth_for_hunks` in `export_lltc4j_utb.py`
(lines 165-184). It differs from `accOffsets` only in the addition branch:
`target = new_start + i` with no subtraction of `old_lines`. -/
def accOffsetsUtb (h : Hunk) (label : String) (acc : List GroundTruthRecord) :
    List Int → Option (List GroundTruthRecord)
  | [] => some acc
  | i :: rest =>
    match pyIndex h.content i with
    | none => none
    | some line =>
      if pyStartsWith line "-" then
        accOffsetsUtb h label
          (acc ++ [⟨some (h.old_start + i), none, groupOf label⟩]) rest
      else if pyStartsWith line "+" then
        accOffsetsUtb h label
          (acc ++ [⟨none, some (h.new_start + i), groupOf label⟩]) rest
      else
        accOffsetsUtb h label acc rest

/-- Middle loop of `export_ground_truth_for_hunks` (`export_lltc4j_utb.py`
lines 161-163). -/
def accPairsUtb (h : Hunk) (acc : List GroundTruthRecord) :
    List (String × List Int) → Option (List GroundTruthRecord)
  | [] => some acc
  | (label, offsets) :: rest =>
    if LINE_LABELS_CODE.contains label then
      match accOffsetsUtb h label acc offsets with
      | none => none
      | some acc₁ => accPairsUtb h acc₁ rest
    else
      accPairsUtb h acc rest

/-- Outer loop of `export_ground_truth_for_hunks` (`export_lltc4j_utb.py`
lines 156-185). -/
def exportGroundTruthHunksAcc (acc : List GroundTruthRecord) :
    List Hunk → Option (List GroundTruthRecord)
  | [] => some acc
  | h :: rest =>
    match accPairsUtb h acc h.lines_verified with
    | none => none
    | some acc₁ => exportGroundTruthHunksAcc acc₁ rest

/-- `export_ground_truth_for_hunks` from `export_lltc4j_utb.py`. -/
def export_ground_truth_for_hunks (hunks : List Hunk) :
    Option (List GroundTruthRecord) :=
  exportGroundTruthHunksAcc [] hunks

/-- Python `set.add` on a set of strings, modelled as a duplicate-free list
in insertion order. -/
def pySetAdd (s : List String) (x : String) : List String :=
  if s.contains x then s else s ++ [x]

/-- Per-hunk loop body of `count_tangled_hunks`
(`list_tangled_commits.py` lines 66-78): walk `hunk.lines_verified.items()`
with the `seen_labels` set, incrementing the count each time
`len(seen_labels) == 2` holds after processing a label. -/
def tangledHunkLabels (seen : List String) (count : Nat) :
    List (String × List Int) → Nat
  | [] => count
  | (label, _) :: rest =>
    if LINE_LABELS_CODE.contains label then
      let seen₁ :=
        if LINE_LABELS_CODE_FIX.contains label then pySetAdd seen "fix"
        else if LINE_LABELS_CODE_NO_FIX.contains label then pySetAdd seen "nofix"
        else seen
      tangledHunkLabels seen₁ (if seen₁.length = 2 then count + 1 else count) rest
    else
      tangledHunkLabels seen count rest

/-- `count_tangled_hunks` from `list_tangled_commits.py` (the unused
`commit_hash` argument is dropped; it only feeds a log message). -/
def count_tangled_hunks (hunks : List Hunk) : Nat :=
  hunks.foldl (fun c h => tangledHunkLabels [] c h.lines_verified) 0

/-- `defaultlist` read `line_labels[i]` (`list_tangled_commits.py` line 48):
a nonnegative index extends the list with the default `None` up to `i`,
a negative index counts from the end and raises below `-len`.
Returns the value read and the (possibly extended) list. -/
def pyDLGet (d : List (Option String)) (i : Int) :
    Option (Option String × List (Option String)) :=
  if 0 ≤ i then
    let n := i.toNat
    let d₁ := if n < d.length then d else d ++ List.replicate (n + 1 - d.length) none
    some (d₁.getD n none, d₁)
  else
    let j : Int := (d.length : Int) + i
    if 0 ≤ j then some (d.getD j.toNat none, d) else none

/-- `defaultlist` write `line_labels[i] = label`
(`list_tangled_commits.py` line 52). -/
def pyDLSet (d : List (Option String)) (i : Int) (v : String) :
    Option (List (Option String)) :=
  if 0 ≤ i then
    let n := i.toNat
    let d₁ := if n < d.length then d else d ++ List.replicate (n + 1 - d.length) none
    some (d₁.set n (some v))
  else
    let j : Int := (d.length : Int) + i
    if 0 ≤ j then some (d.set j.toNat (some v)) else none

/-- Python truthiness of a `defaultlist` cell: `None` and the empty string
are falsy, any other string is truthy. -/
def pyTruthy (v : Option String) : Bool :=
  match v with
  | none => false
  | some s => s != ""

/-- Inner loop of `count_tangled_lines` (`list_tangled_commits.py` lines
47-52): walk the offsets of one label, counting offsets whose `line_labels`
cell is already truthy; the log line indexes `hunk_content_by_line[i]`, so
an invalid offset raises there (modelled by the `pyIndex` check). -/
def ctlOffsets (content : List String) (label : String)
    (st : List (Option String) × Nat) : List Int → Option (List (Option String) × Nat)
  | [] => some st
  | i :: rest =>
    match pyDLGet st.1 i with
    | none => none
    | some (v, d₁) =>
      if pyTruthy v then
        match pyIndex content i with
        | none => none
        | some _ =>
          match pyDLSet d₁ i label with
          | none => none
          | some d₂ => ctlOffsets content label (d₂, st.2 + 1) rest
      else
        match pyDLSet d₁ i label with
        | none => none
        | some d₂ => ctlOffsets content label (d₂, st.2) rest

/-- Middle loop of `count_tangled_lines` (`list_tangled_commits.py` line 46):
walk all of `hunk.lines_verified.items()` (no code-label filter here). -/
def ctlPairs (content : List String) (st : List (Option String) × Nat) :
    List (String × List Int) → Option (List (Option String) × Nat)
  | [] => some st
  | (label, offsets) :: rest =>
    match ctlOffsets content label st offsets with
    | none => none
    | some st₁ => ctlPairs content st₁ rest

/-- Outer loop of `count_tangled_lines` (`list_tangled_commits.py` lines
42-52): a fresh `line_labels` defaultlist per hunk, the count threads on. -/
def ctlHunks (count : Nat) : List Hunk → Option Nat
  | [] => some count
  | h :: rest =>
    match ctlPairs h.content ([], count) h.lines_verified with
    | none => none
    | some st => ctlHunks st.2 rest

/-- `count_tangled_lines` from `list_tangled_commits.py` (the `commit_hash`
argument only feeds log messages). -/
def count_tangled_lines (hunks : List Hunk) (_commit_hash : String) : Option Nat :=
  ctlHunks 0 hunks

/-- One `FileAction` of a commit, with the paths of the files its
`old_file_id` / `file_id` references resolve to. -/
structure FileActionM where
  old_file : Option String
  new_file : String
  mode : String
  hunks : List Hunk
deriving DecidableEq

/-- A commit as used by `export_ground_truth_for_commit`: its labels dict,
parent hashes, and the file actions the `FileAction.objects` query returns. -/
structure CommitM where
  labels : Option (List (String × Bool))
  parents : List String
  file_actions : List FileActionM
deriving DecidableEq

/-- The file resolution of `export_ground_truth_for_commit`
(`export_lltc4j.py` lines 182-191): prefer the old file; fall back to the
new file when there is no old file or the action is a rename. -/
def resolvePath (fa : FileActionM) : String :=
  match fa.old_file with
  | none => fa.new_file
  | some p => if fa.mode = "R" then fa.new_file else p

/-- The commit eligibility test of `export_ground_truth_for_commit`
(`export_lltc4j.py` lines 174-179): labels present, `validated_bugfix`
key present and truthy, exactly one parent. -/
def isEligible (c : CommitM) : Bool :=
  match c.labels with
  | none => false
  | some ls =>
    (match (ls.find? (fun p => p.1 == "validated_bugfix")).map Prod.snd with
     | some b => b
     | none => false)
    && c.parents.length == 1

/-- The per-file loop of `export_ground_truth_for_commit`
(`export_lltc4j.py` lines 181-202): skip non-Java and test files
(`path.endswith(".java")`, `path.endswith("Test.java")`,
`"src/test" in path`), otherwise one frame of `(file, row)` pairs from
`label_lines` on the hunks of the file action. -/
def framesFor : List FileActionM → Option (List (List (String × GroundTruthRecord)))
  | [] => some []
  | fa :: rest =>
    let path := resolvePath fa
    if !pyEndsWith path ".java" || pyEndsWith path "Test.java"
        || pyInStr "src/test" path then
      framesFor rest
    else
      match label_lines fa.hunks with
      | none => none
      | some recs =>
        match framesFor rest with
        | none => none
        | some frames => some ((recs.map (fun r => (path, r))) :: frames)

/-- `export_ground_truth_for_commit` from `export_lltc4j.py`: outer `none`
models a propagated exception, `some none` the Python `None` result
(ineligible commit or no relevant file), `some (some rows)` the
concatenated frame. -/
def export_ground_truth_for_commit (c : CommitM) :
    Option (Option (List (String × GroundTruthRecord))) :=
  if isEligible c then
    match framesFor c.file_actions with
    | none => none
    | some frames =>
      if frames.length = 0 then some none
      else some (some frames.flatten)
  else some none

/-- Path segments of a path string, split on `/` (used to state the claim's
test-file notion). -/
def pathSegments (s : String) : List (List Char) :=
  s.data.splitOnP (fun c => c == '/')

/-- The test-file notion asserted by claim C7: a path ending `Test.java` or
`Tests.java`, or containing a `test` or `tests` path segment. -/
def claimIsTestFile (path : String) : Bool :=
  pyEndsWith path "Test.java" || pyEndsWith path "Tests.java" ||
  (pathSegments path).contains "test".data ||
  (pathSegments path).contains "tests".data

/-- Number of traversal occurrences whose offset was already claimed before
(either in `S` or earlier in the list). -/
def countRepeats (S : List Int) : List Int → Nat
  | [] => 0
  | i :: rest => (if i ∈ S then 1 else 0) + countRepeats (S ++ [i]) rest

/-- Number of distinct offsets of the list that are new relative to `S`. -/
def distinctNew (S : List Int) : List Int → Nat
  | [] => 0
  | i :: rest => (if i ∈ S then 0 else 1) + distinctNew (S ++ [i]) rest

/-- All offset occurrences of a hunk's `lines_verified`, in traversal
order. -/
def flatOffsets (h : Hunk) : List Int :=
  h.lines_verified.flatMap (fun p => p.2)

/-- Truthiness of the `line_labels` defaultlist at a nonnegative index. -/
def truthyAt (d : List (Option String)) (i : Int) : Bool :=
  pyTruthy (d.getD i.toNat none)

/-- Spec-side description of the record emitted for one offset
(spec section 4.1, step 2a-2c): a deletion line yields a source-only
record `old_start + i`, an addition line a target-only record
`new_start + i - old_lines`, a context line yields nothing. -/
def specRecordAt (h : Hunk) (label : String) (i : Int) : Option GroundTruthRecord :=
  match pyIndex h.content i with
  | none => none
  | some line =>
    if pyStartsWith line "-" then
      some ⟨some (h.old_start + i), none, groupOf label⟩
    else if pyStartsWith line "+" then
      some ⟨none, some (h.new_start + i - h.old_lines), groupOf label⟩
    else
      none

/-- Spec-side description of all records of one hunk: code-relevant label
entries in dict order, each offset contributing its `specRecordAt` record. -/
def specHunkRecords (h : Hunk) : List GroundTruthRecord :=
  (h.lines_verified.filter (fun p => LINE_LABELS_CODE.contains p.1)).flatMap
    (fun p => p.2.filterMap (fun i => specRecordAt h p.1 i))

theorem accOffsets_append (h : Hunk) (label : String) (os : List Int) :
    ∀ acc₁ acc₂ : List GroundTruthRecord,
    accOffsets h label (acc₁ ++ acc₂) os =
      Option.map (fun out => acc₁ ++ out) (accOffsets h label acc₂ os) := by
  induction os with
  | nil => intro acc₁ acc₂; simp [accOffsets]
  | cons i rest ih =>
    intro acc₁ acc₂
    simp only [accOffsets]
    cases hpi : pyIndex h.content i with
    | none => rfl
    | some line =>
      by_cases hm : pyStartsWith line "-" = true
      · simpa only [hm, if_true, List.append_assoc] using
          ih acc₁ (acc₂ ++ [⟨some (h.old_start + i), none, groupOf label⟩])
      · by_cases hp : pyStartsWith line "+" = true
        · simpa only [hm, hp, if_true, if_false, List.append_assoc] using
            ih acc₁ (acc₂ ++ [⟨none, some (h.new_start + i - h.old_lines), groupOf label⟩])
        · simpa only [hm, hp, if_false] using ih acc₁ acc₂

theorem accPairs_append (h : Hunk) (pairs : List (String × List Int)) :
    ∀ acc₁ acc₂ : List GroundTruthRecord,
    accPairs h (acc₁ ++ acc₂) pairs =
      Option.map (fun out => acc₁ ++ out) (accPairs h acc₂ pairs) := by
  induction pairs with
  | nil => intro acc₁ acc₂; simp [accPairs]
  | cons p rest ih =>
    intro acc₁ acc₂
    obtain ⟨label, offsets⟩ := p
    simp only [accPairs]
    by_cases hc : LINE_LABELS_CODE.contains label = true
    · simp only [hc, if_true, accOffsets_append h label offsets acc₁ acc₂]
      cases accOffsets h label acc₂ offsets with
      | none => rfl
      | some acc₂' => exact ih acc₁ acc₂'
    · simpa only [hc, if_false] using ih acc₁ acc₂

theorem labelLinesAcc_append (hunks : List Hunk) :
    ∀ acc₁ acc₂ : List GroundTruthRecord,
    labelLinesAcc (acc₁ ++ acc₂) hunks =
      Option.map (fun out => acc₁ ++ out) (labelLinesAcc acc₂ hunks) := by
  induction hunks with
  | nil => intro acc₁ acc₂; simp [labelLinesAcc]
  | cons h rest ih =>
    intro acc₁ acc₂
    simp only [labelLinesAcc, accPairs_append h h.lines_verified acc₁ acc₂]
    cases accPairs h acc₂ h.lines_verified with
    | none => rfl
    | some acc₂' => exact ih acc₁ acc₂'

theorem accOffsets_spec (h : Hunk) (label : String) (os : List Int)
    (hval : ∀ i ∈ os, (pyIndex h.content i).isSome) :
    accOffsets h label [] os =
      some (os.filterMap (fun i => specRecordAt h label i)) := by
  induction os with
  | nil => simp [accOffsets]
  | cons i rest ih =>
    have hi : (pyIndex h.content i).isSome := hval i (List.mem_cons_self i rest)
    obtain ⟨line, hpi⟩ := Option.isSome_iff_exists.mp hi
    have ihr := ih (fun j hj => hval j (List.mem_cons_of_mem i hj))
    by_cases hm : pyStartsWith line "-" = true
    · have hrec : specRecordAt h label i =
          some ⟨some (h.old_start + i), none, groupOf label⟩ := by
        simp [specRecordAt, hpi, hm]
      have happ := accOffsets_append h label rest
        [⟨some (h.old_start + i), none, groupOf label⟩] []
      simp only [List.append_nil, List.nil_append] at happ
      simp [accOffsets, hpi, hm, List.filterMap_cons, hrec, happ, ihr]
    · by_cases hp : pyStartsWith line "+" = true
      · have hrec : specRecordAt h label i =
            some ⟨none, some (h.new_start + i - h.old_lines), groupOf label⟩ := by
          simp [specRecordAt, hpi, hm, hp]
        have happ := accOffsets_append h label rest
          [⟨none, some (h.new_start + i - h.old_lines), groupOf label⟩] []
        simp only [List.append_nil, List.nil_append] at happ
        simp [accOffsets, hpi, hm, hp, List.filterMap_cons, hrec, happ, ihr]
      · have hrec : specRecordAt h label i = none := by
          simp [specRecordAt, hpi, hm, hp]
        simp [accOffsets, hpi, hm, hp, List.filterMap_cons, hrec, ihr]

theorem accPairs_spec (h : Hunk) (pairs : List (String × List Int))
    (hval : ∀ p ∈ pairs, LINE_LABELS_CODE.contains p.1 = true →
      ∀ i ∈ p.2, (pyIndex h.content i).isSome) :
    accPairs h [] pairs =
      some ((pairs.filter (fun p => LINE_LABELS_CODE.contains p.1)).flatMap
        (fun p => p.2.filterMap (fun i => specRecordAt h p.1 i))) := by
  induction pairs with
  | nil => simp [accPairs]
  | cons p rest ih =>
    obtain ⟨label, offsets⟩ := p
    have ihr := ih (fun q hq => hval q (List.mem_cons_of_mem _ hq))
    by_cases hc : LINE_LABELS_CODE.contains label = true
    · have hmem : label ∈ LINE_LABELS_CODE := by simpa using hc
      have hvo : ∀ i ∈ offsets, (pyIndex h.content i).isSome :=
        hval (label, offsets) (List.mem_cons_self _ rest) hc
      have hoff := accOffsets_spec h label offsets hvo
      have happ := accPairs_append h rest
        (offsets.filterMap (fun i => specRecordAt h label i)) []
      simp only [List.append_nil, List.nil_append] at happ
      simp [accPairs, List.filter_cons, hc, hmem, hoff, happ, ihr]
    · have hmem : label ∉ LINE_LABELS_CODE := by simpa using hc
      simp [accPairs, List.filter_cons, hc, hmem, ihr]

theorem labelLinesAcc_spec (hunks : List Hunk)
    (hval : ∀ h ∈ hunks, ∀ p ∈ h.lines_verified,
      LINE_LABELS_CODE.contains p.1 = true →
      ∀ i ∈ p.2, (pyIndex h.content i).isSome) :
    labelLinesAcc [] hunks = some (hunks.flatMap specHunkRecords) := by
  induction hunks with
  | nil => simp [labelLinesAcc]
  | cons h rest ih =>
    have ihr := ih (fun h' hh' => hval h' (List.mem_cons_of_mem _ hh'))
    have hp := accPairs_spec h h.lines_verified
      (hval h (List.mem_cons_self _ rest))
    have happ := labelLinesAcc_append rest (specHunkRecords h) []
    simp only [List.append_nil, List.nil_append] at happ
    rw [specHunkRecords] at happ
    simp only [labelLinesAcc, hp]
    rw [happ, ihr]
    simp [specHunkRecords]

theorem accOffsets_invalid (h : Hunk) (label : String) (os : List Int)
    (hbad : ∃ i ∈ os, pyIndex h.content i = none) :
    ∀ acc, accOffsets h label acc os = none := by
  induction os with
  | nil => simp at hbad
  | cons i rest ih =>
    intro acc
    obtain ⟨j, hj, hnone⟩ := hbad
    rcases List.mem_cons.mp hj with hji | hjr
    · subst hji; simp [accOffsets, hnone]
    · cases hpi : pyIndex h.content i with
      | none => simp [accOffsets, hpi]
      | some line =>
        have ih' := ih ⟨j, hjr, hnone⟩
        by_cases hm : pyStartsWith line "-" = true
        · simp [accOffsets, hpi, hm, ih']
        · by_cases hpl : pyStartsWith line "+" = true
          · simp [accOffsets, hpi, hm, hpl, ih']
          · simp [accOffsets, hpi, hm, hpl, ih']

theorem accPairs_invalid (h : Hunk) (pairs : List (String × List Int))
    (hbad : ∃ p ∈ pairs, LINE_LABELS_CODE.contains p.1 = true ∧
      ∃ i ∈ p.2, pyIndex h.content i = none) :
    ∀ acc, accPairs h acc pairs = none := by
  induction pairs with
  | nil => simp at hbad
  | cons q rest ih =>
    intro acc
    obtain ⟨p, hp, hcode, hbadoff⟩ := hbad
    obtain ⟨label, offsets⟩ := q
    rcases List.mem_cons.mp hp with hpq | hpr
    · subst hpq
      simp only [accPairs, hcode, if_true]
      rw [accOffsets_invalid h label offsets hbadoff acc]
    · by_cases hc : LINE_LABELS_CODE.contains label = true
      · have hmem : label ∈ LINE_LABELS_CODE := by simpa using hc
        cases hoff : accOffsets h label acc offsets with
        | none => simp [accPairs, hc, hmem, hoff]
        | some acc₁ =>
          simp [accPairs, hc, hmem, hoff, ih ⟨p, hpr, hcode, hbadoff⟩ acc₁]
      · have hmem : label ∉ LINE_LABELS_CODE := by simpa using hc
        simp [accPairs, hc, hmem, ih ⟨p, hpr, hcode, hbadoff⟩ acc]

theorem labelLinesAcc_invalid (hunks : List Hunk)
    (hbad : ∃ h ∈ hunks, ∃ p ∈ h.lines_verified,
      LINE_LABELS_CODE.contains p.1 = true ∧
      ∃ i ∈ p.2, pyIndex h.content i = none) :
    ∀ acc, labelLinesAcc acc hunks = none := by
  induction hunks with
  | nil => simp at hbad
  | cons h rest ih =>
    intro acc
    obtain ⟨g, hg, hbadg⟩ := hbad
    rcases List.mem_cons.mp hg with hgh | hgr
    · subst hgh
      simp only [labelLinesAcc]
      rw [accPairs_invalid g g.lines_verified hbadg acc]
    · cases hpp : accPairs h acc h.lines_verified with
      | none => simp [labelLinesAcc, hpp]
      | some acc₁ => simp [labelLinesAcc, hpp, ih ⟨g, hgr, hbadg⟩ acc₁]

theorem label_lines_some_valid (hs : List Hunk) (rs : List GroundTruthRecord)
    (hrun : label_lines hs = some rs) :
    ∀ h ∈ hs, ∀ p ∈ h.lines_verified, LINE_LABELS_CODE.contains p.1 = true →
      ∀ i ∈ p.2, (pyIndex h.content i).isSome := by
  intro h hh p hp hc i hi
  cases hx : pyIndex h.content i with
  | some _ => simp
  | none =>
    have hnone := labelLinesAcc_invalid hs ⟨h, hh, p, hp, hc, i, hi, hx⟩ []
    rw [label_lines, hnone] at hrun
    exact Option.noConfusion hrun

theorem pyIndex_eq_none (xs : List String) (i : Int)
    (hbad : (xs.length : Int) ≤ i ∨ i < -(xs.length : Int)) :
    pyIndex xs i = none := by
  rcases hbad with hge | hlt
  · have h0 : ¬ i < 0 := by omega
    have h1 : ¬ (0 ≤ i ∧ i < (xs.length : Int)) := by omega
    simp only [pyIndex, h0, if_false, h1]
  · have h0 : i < 0 := by omega
    have h1 : ¬ (0 ≤ (xs.length : Int) + i ∧ (xs.length : Int) + i < (xs.length : Int)) := by
      omega
    simp only [pyIndex, h0, if_true, h1, if_false]

/-- C1: for every hunk and every offset `i` listed under a code-relevant
label in `lines_verified`, `label_lines` emits exactly the record described
by `specRecordAt`: a line starting with the deletion marker yields a record
with `source_line = old_start + i` and no target line, a line starting with
the addition marker yields a record with
`target_line = new_start + i - old_lines` and no source line, and a context
line yields no record; the output is the in-order concatenation of those
records. -/
theorem label_lines_marker_rules (hs : List Hunk)
    (hval : ∀ h ∈ hs, ∀ p ∈ h.lines_verified,
      LINE_LABELS_CODE.contains p.1 = true →
      ∀ i ∈ p.2, (pyIndex h.content i).isSome) :
    label_lines hs = some (hs.flatMap specHunkRecords) ∧
    ∀ (h : Hunk) (label : String) (i : Int) (line : String),
      pyIndex h.content i = some line →
      (pyStartsWith line "-" = true →
        specRecordAt h label i =
          some ⟨some (h.old_start + i), none, groupOf label⟩) ∧
      (pyStartsWith line "-" = false → pyStartsWith line "+" = true →
        specRecordAt h label i =
          some ⟨none, some (h.new_start + i - h.old_lines), groupOf label⟩) ∧
      (pyStartsWith line "-" = false → pyStartsWith line "+" = false →
        specRecordAt h label i = none) := by
  refine ⟨labelLinesAcc_spec hs hval, ?_⟩
  intro h label i line hline
  refine ⟨fun hm => ?_, fun hm hp => ?_, fun hm hp => ?_⟩
  · simp [specRecordAt, hline, hm]
  · simp [specRecordAt, hline, hm, hp]
  · simp [specRecordAt, hline, hm, hp]

theorem label_lines_marker_rules_witness :
    label_lines [⟨42, 42, 2, 3, ["- A", "- B", "+ AA", "+ BB", "+ CC"],
        [("bugfix", [0, 2, 4]), ("no_bugfix", [1, 3])]⟩] =
      some [⟨some 42, none, "bugfix"⟩, ⟨none, some 42, "bugfix"⟩,
            ⟨none, some 44, "bugfix"⟩, ⟨some 43, none, "nonbugfix"⟩,
            ⟨none, some 43, "nonbugfix"⟩] :=
  ((label_lines_marker_rules
      [⟨42, 42, 2, 3, ["- A", "- B", "+ AA", "+ BB", "+ CC"],
        [("bugfix", [0, 2, 4]), ("no_bugfix", [1, 3])]⟩]
      (by decide)).1).trans (by decide)

/-- C2: the two sibling export variants are not equivalent: on a hunk with
`old_lines = 1` and a code-labelled addition line at offset 1,
`label_lines` computes `target = new_start + i - old_lines = 1` while
`export_ground_truth_for_hunks` computes `target = new_start + i = 2`. -/
theorem label_lines_variants_disagree :
    label_lines [⟨1, 1, 1, 1, ["- A", "+ B"], [("bugfix", [1])]⟩] =
      some [⟨none, some 1, "bugfix"⟩] ∧
    export_ground_truth_for_hunks [⟨1, 1, 1, 1, ["- A", "+ B"], [("bugfix", [1])]⟩] =
      some [⟨none, some 2, "bugfix"⟩] ∧
    (1 : Int) = 1 + 1 - 1 ∧ (2 : Int) = 1 + 1 ∧ (0 : Int) < 1 := by decide

/-- C3: every record emitted by `label_lines` has exactly one of
`source`/`target` present: deletions populate only the source line,
additions only the target line; never both, never neither. -/
theorem label_lines_one_sided (hs : List Hunk) (rs : List GroundTruthRecord)
    (hrun : label_lines hs = some rs) :
    ∀ r ∈ rs, (r.source.isSome ∧ r.target = none) ∨
      (r.source = none ∧ r.target.isSome) := by
  intro r hr
  have hval := label_lines_some_valid hs rs hrun
  have hchar := labelLinesAcc_spec hs hval
  rw [label_lines] at hrun
  have hrs : rs = hs.flatMap specHunkRecords :=
    Option.some.inj (hrun.symm.trans hchar)
  subst hrs
  obtain ⟨h, _, hr2⟩ := List.mem_flatMap.mp hr
  rw [specHunkRecords] at hr2
  obtain ⟨p, _, hr3⟩ := List.mem_flatMap.mp hr2
  obtain ⟨i, _, hrec⟩ := List.mem_filterMap.mp hr3
  simp only [specRecordAt] at hrec
  cases hx : pyIndex h.content i with
  | none =>
    rw [hx] at hrec
    simp at hrec
  | some line =>
    rw [hx] at hrec
    by_cases hm : pyStartsWith line "-" = true
    · simp [hm] at hrec
      subst hrec
      left; simp
    · by_cases hpl : pyStartsWith line "+" = true
      · simp [hm, hpl] at hrec
        subst hrec
        right; simp
      · simp [hm, hpl] at hrec

theorem label_lines_one_sided_witness :
    ((⟨some 42, none, "bugfix"⟩ : GroundTruthRecord).source.isSome ∧
      (⟨some 42, none, "bugfix"⟩ : GroundTruthRecord).target = none) ∨
    ((⟨some 42, none, "bugfix"⟩ : GroundTruthRecord).source = none ∧
      (⟨some 42, none, "bugfix"⟩ : GroundTruthRecord).target.isSome) :=
  label_lines_one_sided [⟨42, 42, 0, 0, ["- A"], [("bugfix", [0])]⟩]
    [⟨some 42, none, "bugfix"⟩] (by decide)
    ⟨some 42, none, "bugfix"⟩ (by decide)

/-- C4: a `lines_verified` entry whose label is not code-relevant is skipped
entirely (no record, no error, whatever its offsets); for code-relevant
labels the group is `"bugfix"` exactly for the fix-group label and
`"nonbugfix"` exactly for the non-fix-group labels. -/
theorem label_lines_group_mapping (h : Hunk) (label : String)
    (offsets : List Int) (rest : List (String × List Int))
    (acc : List GroundTruthRecord) :
    (LINE_LABELS_CODE.contains label = false →
      accPairs h acc ((label, offsets) :: rest) = accPairs h acc rest) ∧
    (groupOf label = "bugfix" ↔ LINE_LABELS_CODE_FIX.contains label = true) ∧
    (LINE_LABELS_CODE.contains label = true →
      (groupOf label = "nonbugfix" ↔
        LINE_LABELS_CODE_NO_FIX.contains label = true)) := by
  refine ⟨fun hf => ?_, ?_, fun hcode => ?_⟩
  · have hmem : label ∉ LINE_LABELS_CODE := by simpa using hf
    simp [accPairs, hmem]
  · by_cases hfix : LINE_LABELS_CODE_FIX.contains label = true
    · have hmemf : label ∈ LINE_LABELS_CODE_FIX := by simpa using hfix
      simp [groupOf, hfix, hmemf]
    · have hmemf : label ∉ LINE_LABELS_CODE_FIX := by simpa using hfix
      have hne : label ≠ "bugfix" := by
        simpa [LINE_LABELS_CODE_FIX] using hfix
      by_cases hnf : LINE_LABELS_CODE_NO_FIX.contains label = true
      · have hmemnf : label ∈ LINE_LABELS_CODE_NO_FIX := by simpa using hnf
        have hne2 : ("nonbugfix" : String) ≠ "bugfix" := by decide
        simp [groupOf, hfix, hmemf, hmemnf, hne2]
      · have hmemnf : label ∉ LINE_LABELS_CODE_NO_FIX := by simpa using hnf
        simp [groupOf, hfix, hmemf, hmemnf, hne]
  · have hcases : label = "bugfix" ∨ label = "refactoring" ∨
        label = "unrelated" ∨ label = "no_bugfix" := by
      simpa [LINE_LABELS_CODE, LINE_LABELS_CODE_FIX, LINE_LABELS_CODE_NO_FIX]
        using hcode
    rcases hcases with rfl | rfl | rfl | rfl <;> decide

theorem label_lines_group_mapping_witness :
    accPairs ⟨1, 1, 0, 0, ["- A"], []⟩ [] [("test", [99])] =
      accPairs ⟨1, 1, 0, 0, ["- A"], []⟩ [] [] ∧
    (groupOf "refactoring" = "nonbugfix" ↔
      LINE_LABELS_CODE_NO_FIX.contains "refactoring" = true) :=
  ⟨(label_lines_group_mapping ⟨1, 1, 0, 0, ["- A"], []⟩ "test" [99] [] []).1
      (by decide),
   (label_lines_group_mapping ⟨1, 1, 0, 0, ["- A"], []⟩ "refactoring" [] [] []).2.2
      (by decide)⟩

/-- C6 counterexample: the claim says an offset outside `content` (negative
or at least the number of lines) makes the labeller fail, but a negative
offset that is at least `-len(content)` silently emits a record computed
from the Python-wrapped content line instead of raising. -/
theorem label_lines_negative_offset_silent :
    label_lines [⟨42, 42, 0, 0, ["- A"], [("bugfix", [-1])]⟩] =
      some [⟨some 41, none, "bugfix"⟩] ∧
    label_lines [⟨42, 42, 0, 0, ["- A"], [("bugfix", [-1])]⟩] ≠ none := by decide

/-- C6 (amended): an offset under a code-relevant label that is at least
`len(content)` or strictly below `-len(content)` raises an `IndexError`, so
`label_lines` produces no result for the whole hunk list. -/
theorem label_lines_out_of_range_errors (hs : List Hunk) (h : Hunk)
    (p : String × List Int) (i : Int) (hh : h ∈ hs)
    (hp : p ∈ h.lines_verified) (hcode : LINE_LABELS_CODE.contains p.1 = true)
    (hi : i ∈ p.2)
    (hbad : (h.content.length : Int) ≤ i ∨ i < -(h.content.length : Int)) :
    label_lines hs = none :=
  labelLinesAcc_invalid hs
    ⟨h, hh, p, hp, hcode, i, hi, pyIndex_eq_none h.content i hbad⟩ []

theorem label_lines_out_of_range_errors_witness :
    label_lines [⟨1, 1, 0, 0, ["- A"], [("bugfix", [5])]⟩] = none :=
  label_lines_out_of_range_errors [⟨1, 1, 0, 0, ["- A"], [("bugfix", [5])]⟩]
    ⟨1, 1, 0, 0, ["- A"], [("bugfix", [5])]⟩ ("bugfix", [5]) 5
    (by decide) (by decide) (by decide) (by decide) (by decide)

/-- C9: the labeller is deterministic and stateless: the `ground_truth`
accumulator only prefixes the records a run appends (so prior state never
changes what a call computes), and two calls on the same hunk list give
identical results; inputs are values in this model, hence unchanged. -/
theorem label_lines_stateless (hs : List Hunk) (acc : List GroundTruthRecord) :
    labelLinesAcc acc hs = Option.map (fun out => acc ++ out) (label_lines hs) ∧
    (label_lines hs, label_lines hs).1 = (label_lines hs, label_lines hs).2 := by
  constructor
  · have happ := labelLinesAcc_append hs acc []
    simpa [label_lines] using happ
  · rfl

/-- C10: when two code-relevant labels claim the same offset of the same
hunk, `label_lines` raises no error and deduplicates nothing: it emits one
record per claiming label for that single content line, so the output can
repeat a line number with conflicting groups. -/
theorem label_lines_no_dedup (h : Hunk) (l₁ l₂ : String) (i : Int)
    (line : String)
    (h1 : LINE_LABELS_CODE.contains l₁ = true)
    (h2 : LINE_LABELS_CODE.contains l₂ = true)
    (hlv : h.lines_verified = [(l₁, [i]), (l₂, [i])])
    (hline : pyIndex h.content i = some line)
    (hdel : pyStartsWith line "-" = true) :
    label_lines [h] =
      some [⟨some (h.old_start + i), none, groupOf l₁⟩,
            ⟨some (h.old_start + i), none, groupOf l₂⟩] := by
  have hval : ∀ g ∈ [h], ∀ p ∈ g.lines_verified,
      LINE_LABELS_CODE.contains p.1 = true →
      ∀ j ∈ p.2, (pyIndex g.content j).isSome := by
    intro g hg p hp hc j hj
    rcases List.mem_singleton.mp hg with rfl
    rw [hlv] at hp
    rcases List.mem_cons.mp hp with rfl | hp2
    · rcases List.mem_singleton.mp hj with rfl
      simp [hline]
    · rcases List.mem_singleton.mp hp2 with rfl
      rcases List.mem_singleton.mp hj with rfl
      simp [hline]
  have hchar := labelLinesAcc_spec [h] hval
  rw [label_lines, hchar]
  have hm1 : l₁ ∈ LINE_LABELS_CODE := by simpa using h1
  have hm2 : l₂ ∈ LINE_LABELS_CODE := by simpa using h2
  simp [specHunkRecords, hlv, hm1, hm2, specRecordAt, hline, hdel]

theorem label_lines_no_dedup_witness :
    label_lines [⟨42, 42, 0, 0, ["- A"], [("bugfix", [0]), ("refactoring", [0])]⟩] =
      some [⟨some 42, none, "bugfix"⟩, ⟨some 42, none, "nonbugfix"⟩] :=
  (label_lines_no_dedup
      ⟨42, 42, 0, 0, ["- A"], [("bugfix", [0]), ("refactoring", [0])]⟩
      "bugfix" "refactoring" 0 "- A"
      (by decide) (by decide) rfl (by decide) (by decide)).trans (by decide)

/-- C5: `count_tangled_hunks` does not count each tangled hunk exactly once:
a single hunk whose labels are bugfix, refactoring and unrelated spans both
groups (one tangled hunk by the spec, as the `countP` conjunct computes) but
the loop increments once per code label processed while `len(seen_labels)`
is 2, returning 2. -/
theorem count_tangled_hunks_double_counts :
    count_tangled_hunks
      [⟨1, 1, 0, 0, ["- A", "- B", "- C"],
        [("bugfix", [0]), ("refactoring", [1]), ("unrelated", [2])]⟩] = 2 ∧
    ([⟨1, 1, 0, 0, ["- A", "- B", "- C"],
        [("bugfix", [0]), ("refactoring", [1]), ("unrelated", [2])]⟩] :
      List Hunk).countP
      (fun h =>
        (h.lines_verified.any (fun p => LINE_LABELS_CODE_FIX.contains p.1)) &&
        (h.lines_verified.any (fun p => LINE_LABELS_CODE_NO_FIX.contains p.1))) = 1 ∧
    (2 : Nat) ≠ 1 := by decide

/-- C7 counterexample: a path with a `tests` segment (not ending
`Test.java`, not containing the substring `src/test`) is a test file by the
claim, yet the export still emits ground-truth rows for it. -/
theorem export_includes_claimed_test_file :
    export_ground_truth_for_commit
      ⟨some [("validated_bugfix", true)], ["p"],
        [⟨some "a/tests/Foo.java", "a/tests/Foo.java", "M",
          [⟨5, 5, 0, 0, ["- x"], [("bugfix", [0])]⟩]⟩]⟩ =
      some (some [("a/tests/Foo.java", ⟨some 5, none, "bugfix"⟩)]) ∧
    claimIsTestFile "a/tests/Foo.java" = true := by decide

theorem framesFor_paths (fas : List FileActionM)
    (frames : List (List (String × GroundTruthRecord)))
    (hrun : framesFor fas = some frames) :
    ∀ f ∈ frames, ∀ pr ∈ f, pyEndsWith pr.1 ".java" = true ∧
      pyEndsWith pr.1 "Test.java" = false ∧
      pyInStr "src/test" pr.1 = false := by
  induction fas generalizing frames with
  | nil =>
    simp only [framesFor] at hrun
    cases Option.some.inj hrun
    simp
  | cons fa rest ih =>
    simp only [framesFor] at hrun
    by_cases hskip : (!pyEndsWith (resolvePath fa) ".java"
        || pyEndsWith (resolvePath fa) "Test.java"
        || pyInStr "src/test" (resolvePath fa)) = true
    · rw [if_pos hskip] at hrun
      exact ih frames hrun
    · rw [if_neg hskip] at hrun
      have hparts : pyEndsWith (resolvePath fa) ".java" = true ∧
          pyEndsWith (resolvePath fa) "Test.java" = false ∧
          pyInStr "src/test" (resolvePath fa) = false := by
        have h0 : (!pyEndsWith (resolvePath fa) ".java"
            || pyEndsWith (resolvePath fa) "Test.java"
            || pyInStr "src/test" (resolvePath fa)) = false :=
          Bool.eq_false_iff.mpr hskip
        simpa [Bool.or_eq_false_iff, and_assoc] using h0
      cases hll : label_lines fa.hunks with
      | none => rw [hll] at hrun; exact Option.noConfusion hrun
      | some recs =>
        rw [hll] at hrun
        cases hrest : framesFor rest with
        | none => rw [hrest] at hrun; exact Option.noConfusion hrun
        | some frames₁ =>
          rw [hrest] at hrun
          cases Option.some.inj hrun
          intro f hf pr hpr
          rcases List.mem_cons.mp hf with rfl | hf₁
          · obtain ⟨r, _, hpr2⟩ := List.mem_map.mp hpr
            rw [← hpr2]
            exact hparts
          · exact ih frames₁ hrest f hf₁ pr hpr

/-- C7 (amended): a changed file contributes ground-truth rows in the export
only if its resolved path ends with ".java", does not end with "Test.java",
and does not contain the substring "src/test"; paths ending "Tests.java" or
containing test/tests segments outside a "src/test" substring are not
excluded. -/
theorem export_rows_pass_source_filter (c : CommitM)
    (rows : List (String × GroundTruthRecord))
    (hrun : export_ground_truth_for_commit c = some (some rows)) :
    ∀ pr ∈ rows, pyEndsWith pr.1 ".java" = true ∧
      pyEndsWith pr.1 "Test.java" = false ∧
      pyInStr "src/test" pr.1 = false := by
  intro pr hpr
  simp only [export_ground_truth_for_commit] at hrun
  by_cases helig : isEligible c = true
  · rw [if_pos helig] at hrun
    cases hf : framesFor c.file_actions with
    | none => rw [hf] at hrun; exact Option.noConfusion hrun
    | some frames =>
      rw [hf] at hrun
      have hrun2 : (if frames.length = 0 then some none
          else some (some frames.flatten)) = some (some rows) := hrun
      by_cases hlen : frames.length = 0
      · rw [if_pos hlen] at hrun2
        simp at hrun2
      · rw [if_neg hlen] at hrun2
        have hrows : frames.flatten = rows := by simpa using hrun2
        obtain ⟨f, hfmem, hprf⟩ := List.mem_flatten.mp (hrows ▸ hpr)
        exact framesFor_paths c.file_actions frames hf f hfmem pr hprf
  · rw [if_neg helig] at hrun
    simp at hrun

theorem countRepeats_append (l₁ : List Int) :
    ∀ (S l₂ : List Int),
    countRepeats S (l₁ ++ l₂) = countRepeats S l₁ + countRepeats (S ++ l₁) l₂ := by
  induction l₁ with
  | nil => intro S l₂; simp [countRepeats]
  | cons i rest ih =>
    intro S l₂
    simp only [List.cons_append, countRepeats, List.append_eq]
    rw [ih (S ++ [i]) l₂]
    have hx : (S ++ [i]) ++ rest = S ++ (i :: rest) := by simp
    rw [hx]
    omega

theorem countRepeats_add_distinctNew (l : List Int) :
    ∀ S : List Int, countRepeats S l + distinctNew S l = l.length := by
  induction l with
  | nil => intro S; simp [countRepeats, distinctNew]
  | cons i rest ih =>
    intro S
    simp only [countRepeats, distinctNew, List.length_cons]
    have := ih (S ++ [i])
    by_cases hi : i ∈ S <;> simp [hi] <;> omega

theorem distinctNew_card (l : List Int) :
    ∀ S : List Int, S.toFinset.card + distinctNew S l = (S ++ l).toFinset.card := by
  induction l with
  | nil => intro S; simp [distinctNew]
  | cons i rest ih =>
    intro S
    have hstep : (S ++ [i]).toFinset = insert i S.toFinset := by
      simp [List.toFinset_append, Finset.union_comm, Finset.insert_eq]
    have ihx := ih (S ++ [i])
    rw [hstep] at ihx
    have hassoc : (S ++ [i]) ++ rest = S ++ (i :: rest) := by
      simp [List.append_assoc]
    rw [hassoc] at ihx
    simp only [distinctNew]
    by_cases hi : i ∈ S
    · have hcard : (insert i S.toFinset).card = S.toFinset.card :=
        by rw [Finset.insert_eq_self.mpr (List.mem_toFinset.mpr hi)]
      rw [hcard] at ihx
      rw [if_pos hi]
      omega
    · have hcard : (insert i S.toFinset).card = S.toFinset.card + 1 :=
        Finset.card_insert_of_not_mem (fun hmem => hi (List.mem_toFinset.mp hmem))
      rw [hcard] at ihx
      rw [if_neg hi]
      omega

theorem countRepeats_nil_eq (l : List Int) :
    countRepeats [] l = l.length - l.dedup.length := by
  have h1 := countRepeats_add_distinctNew l []
  have h2 := distinctNew_card l []
  simp only [List.nil_append, List.toFinset_nil, Finset.card_empty,
    Nat.zero_add] at h2
  rw [List.card_toFinset] at h2
  omega

theorem getD_append_replicate (d : List (Option String)) (k n : Nat) :
    ((d ++ List.replicate k (none : Option String))[n]?).getD none =
      (d[n]?).getD none := by
  rcases Nat.lt_or_ge n d.length with h | h
  · rw [List.getElem?_append_left h]
  · rw [List.getElem?_append_right h, List.getElem?_eq_none h,
      List.getElem?_replicate]
    by_cases hk : n - d.length < k <;> simp [hk]

theorem pyDLGet_nonneg (d : List (Option String)) (i : Int) (h : 0 ≤ i) :
    ∃ d₁, pyDLGet d i = some (d.getD i.toNat none, d₁) ∧
      (∀ n, d₁.getD n none = d.getD n none) ∧ i.toNat < d₁.length := by
  by_cases hn : i.toNat < d.length
  · exact ⟨d, by simp [pyDLGet, h, hn], fun n => rfl, hn⟩
  · refine ⟨d ++ List.replicate (i.toNat + 1 - d.length) none, ?_, ?_, ?_⟩
    · simp [pyDLGet, h, hn, getD_append_replicate]
    · intro n
      simp only [List.getD_eq_getElem?_getD]
      exact getD_append_replicate d _ n
    · simp only [List.length_append, List.length_replicate]
      omega

theorem pyDLSet_nonneg (d : List (Option String)) (i : Int) (v : String)
    (h : 0 ≤ i) :
    ∃ d₂, pyDLSet d i v = some d₂ ∧
      ∀ n, d₂.getD n none = if n = i.toNat then some v else d.getD n none := by
  by_cases hn : i.toNat < d.length
  · refine ⟨d.set i.toNat (some v), by simp [pyDLSet, h, hn], fun n => ?_⟩
    simp only [List.getD_eq_getElem?_getD]
    by_cases hni : n = i.toNat
    · subst hni; simp [List.getElem?_set_self hn]
    · rw [List.getElem?_set_ne (fun he => hni he.symm)]
      simp [hni]
  · refine ⟨(d ++ List.replicate (i.toNat + 1 - d.length) none).set i.toNat
      (some v), by simp [pyDLSet, h, hn], fun n => ?_⟩
    have hlen : i.toNat < (d ++ List.replicate (i.toNat + 1 - d.length)
        (none : Option String)).length := by
      simp only [List.length_append, List.length_replicate]
      omega
    simp only [List.getD_eq_getElem?_getD]
    by_cases hni : n = i.toNat
    · subst hni; simp [List.getElem?_set_self hlen]
    · rw [List.getElem?_set_ne (fun he => hni he.symm)]
      have := getD_append_replicate d (i.toNat + 1 - d.length) n
      simp only [List.getD_eq_getElem?_getD] at this
      simp [this, hni]

theorem pyIndex_nonneg_isSome (xs : List String) (i : Int) (h0 : 0 ≤ i)
    (hlt : i < (xs.length : Int)) : (pyIndex xs i).isSome := by
  have hneg : ¬ i < 0 := by omega
  have hcond : 0 ≤ i ∧ i < (xs.length : Int) := ⟨h0, hlt⟩
  simp only [pyIndex, hneg, if_false, hcond, if_true, and_true]
  have hn : i.toNat < xs.length := by omega
  simp [List.getElem?_eq_getElem hn]

theorem ctlOffsets_run (content : List String) (label : String)
    (hlab : label ≠ "") (os : List Int)
    (hos : ∀ i ∈ os, 0 ≤ i ∧ i < (content.length : Int)) :
    ∀ (d : List (Option String)) (c : Nat) (S : List Int),
    (∀ j : Int, 0 ≤ j → (truthyAt d j = true ↔ j ∈ S)) →
    ∃ d', ctlOffsets content label (d, c) os =
        some (d', c + countRepeats S os) ∧
      ∀ j : Int, 0 ≤ j → (truthyAt d' j = true ↔ j ∈ S ++ os) := by
  induction os with
  | nil =>
    intro d c S hinv
    exact ⟨d, by simp [ctlOffsets, countRepeats], by simpa using hinv⟩
  | cons i rest ih =>
    intro d c S hinv
    have hi0 : 0 ≤ i := (hos i (List.mem_cons_self i rest)).1
    have hilt : i < (content.length : Int) := (hos i (List.mem_cons_self i rest)).2
    have hos' : ∀ j ∈ rest, 0 ≤ j ∧ j < (content.length : Int) :=
      fun j hj => hos j (List.mem_cons_of_mem i hj)
    obtain ⟨d₁, hget, hgetD, hlen₁⟩ := pyDLGet_nonneg d i hi0
    obtain ⟨d₂, hset, hsetD⟩ := pyDLSet_nonneg d₁ i label hi0
    have hlabne : (label != "") = true := by simpa using hlab
    have hinv₂ : ∀ j : Int, 0 ≤ j → (truthyAt d₂ j = true ↔ j ∈ S ++ [i]) := by
      intro j hj0
      by_cases hji : j.toNat = i.toNat
      · have hje : j = i := by omega
        subst hje
        have hval : d₂.getD j.toNat none = some label := by
          rw [hsetD j.toNat, if_pos hji]
        rw [truthyAt, hval]
        simp [pyTruthy, hlabne]
      · have hjne : j ≠ i := fun he => hji (by rw [he])
        have hval : d₂.getD j.toNat none = d.getD j.toNat none := by
          rw [hsetD j.toNat, if_neg hji, hgetD j.toNat]
        have hinvj := hinv j hj0
        rw [truthyAt] at hinvj
        rw [truthyAt, hval, hinvj]
        simp [hjne]
    have htri : truthyAt d i = pyTruthy (d.getD i.toNat none) := rfl
    by_cases htr : truthyAt d i = true
    · have hiS : i ∈ S := (hinv i hi0).mp htr
      have hpi := pyIndex_nonneg_isSome content i hi0 hilt
      obtain ⟨line, hpieq⟩ := Option.isSome_iff_exists.mp hpi
      obtain ⟨d', hrun, hinv'⟩ := ih hos' d₂ (c + 1) (S ++ [i]) hinv₂
      refine ⟨d', ?_, ?_⟩
      · have hcnt : c + 1 + countRepeats (S ++ [i]) rest =
            c + countRepeats S (i :: rest) := by
          simp only [countRepeats, if_pos hiS]
          omega
        simp only [ctlOffsets]
        rw [hget]
        rw [htri] at htr
        simp only [htr, if_true, hpieq, hset, hrun, hcnt]
      · intro j hj0
        rw [hinv' j hj0]
        simp [List.append_assoc]
    · have hiS : i ∉ S := fun hm =>
        htr ((hinv i hi0).mpr hm)
      obtain ⟨d', hrun, hinv'⟩ := ih hos' d₂ c (S ++ [i]) hinv₂
      refine ⟨d', ?_, ?_⟩
      · have hcnt : c + countRepeats (S ++ [i]) rest =
            c + countRepeats S (i :: rest) := by
          simp only [countRepeats, if_neg hiS]
          omega
        have htrf : truthyAt d i = false := by
          cases hb : truthyAt d i with
          | false => rfl
          | true => exact absurd hb htr
        simp only [ctlOffsets]
        rw [hget]
        rw [htri] at htrf
        simp only [htrf, if_false, Bool.false_eq_true, hset, hrun, hcnt]
      · intro j hj0
        rw [hinv' j hj0]
        simp [List.append_assoc]

theorem ctlPairs_run (content : List String)
    (pairs : List (String × List Int))
    (hpairs : ∀ p ∈ pairs, p.1 ≠ "" ∧
      ∀ i ∈ p.2, 0 ≤ i ∧ i < (content.length : Int)) :
    ∀ (d : List (Option String)) (c : Nat) (S : List Int),
    (∀ j : Int, 0 ≤ j → (truthyAt d j = true ↔ j ∈ S)) →
    ∃ d', ctlPairs content (d, c) pairs =
        some (d', c + countRepeats S (pairs.flatMap (fun p => p.2))) ∧
      ∀ j : Int, 0 ≤ j →
        (truthyAt d' j = true ↔ j ∈ S ++ pairs.flatMap (fun p => p.2)) := by
  induction pairs with
  | nil =>
    intro d c S hinv
    exact ⟨d, by simp [ctlPairs, countRepeats], by simpa using hinv⟩
  | cons p rest ih =>
    intro d c S hinv
    obtain ⟨label, offsets⟩ := p
    have hlab : label ≠ "" := (hpairs (label, offsets) (List.mem_cons_self _ rest)).1
    have hoffs : ∀ i ∈ offsets, 0 ≤ i ∧ i < (content.length : Int) :=
      (hpairs (label, offsets) (List.mem_cons_self _ rest)).2
    have hrest : ∀ q ∈ rest, q.1 ≠ "" ∧
        ∀ i ∈ q.2, 0 ≤ i ∧ i < (content.length : Int) :=
      fun q hq => hpairs q (List.mem_cons_of_mem _ hq)
    obtain ⟨d₁, hrun₁, hinv₁⟩ := ctlOffsets_run content label hlab offsets hoffs d c S hinv
    obtain ⟨d', hrun₂, hinv₂⟩ := ih hrest d₁ (c + countRepeats S offsets) (S ++ offsets) hinv₁
    refine ⟨d', ?_, ?_⟩
    · simp only [ctlPairs]
      rw [hrun₁]
      have hred : (match some (d₁, c + countRepeats S offsets) with
          | none => none
          | some st₁ => ctlPairs content st₁ rest) =
          ctlPairs content (d₁, c + countRepeats S offsets) rest := rfl
      rw [hred, hrun₂]
      have hcnt : c + countRepeats S offsets +
          countRepeats (S ++ offsets) (rest.flatMap (fun p => p.2)) =
          c + countRepeats S (((label, offsets) :: rest).flatMap (fun p => p.2)) := by
        rw [show (((label, offsets) : String × List Int) :: rest).flatMap
            (fun p => p.2) = offsets ++ rest.flatMap (fun p => p.2) from rfl]
        rw [countRepeats_append]
        omega
      rw [hcnt]
    · intro j hj0
      rw [hinv₂ j hj0]
      simp [List.append_assoc]

theorem ctlHunks_run (hs : List Hunk)
    (hws : ∀ h ∈ hs, ∀ p ∈ h.lines_verified, p.1 ≠ "" ∧
      ∀ i ∈ p.2, 0 ≤ i ∧ i < (h.content.length : Int)) :
    ∀ c : Nat, ctlHunks c hs =
      some (c + (hs.map (fun h => countRepeats [] (flatOffsets h))).sum) := by
  induction hs with
  | nil => intro c; simp [ctlHunks]
  | cons h rest ih =>
    intro c
    have hinv0 : ∀ j : Int, 0 ≤ j → (truthyAt ([] : List (Option String)) j = true ↔
        j ∈ ([] : List Int)) := by
      intro j hj0
      simp [truthyAt, pyTruthy, List.getD]
    obtain ⟨d', hrun, _⟩ := ctlPairs_run h.content h.lines_verified
      (hws h (List.mem_cons_self h rest)) [] c [] hinv0
    rw [show h.lines_verified.flatMap (fun p => p.2) = flatOffsets h from rfl] at hrun
    have ihx := ih (fun g hg => hws g (List.mem_cons_of_mem h hg))
      (c + countRepeats [] (flatOffsets h))
    simp only [ctlHunks]
    rw [hrun]
    have hred : (match some (d', c + countRepeats [] (flatOffsets h)) with
        | none => none
        | some st => ctlHunks st.2 rest) =
        ctlHunks (c + countRepeats [] (flatOffsets h)) rest := rfl
    rw [hred, ihx]
    simp only [List.map_cons, List.sum_cons]
    congr 1
    omega

/-- C8 counterexample: an offset claimed by three labels is one tangled
line by the claim (one offset claimed by more than one label), but
`count_tangled_lines` counts it once per claiming label beyond the first,
returning 2. -/
theorem count_tangled_lines_triple_label :
    count_tangled_lines
      [⟨1, 1, 0, 0, ["- A"],
        [("bugfix", [0]), ("refactoring", [0]), ("unrelated", [0])]⟩] "c" =
      some 2 ∧
    ((flatOffsets ⟨1, 1, 0, 0, ["- A"],
        [("bugfix", [0]), ("refactoring", [0]), ("unrelated", [0])]⟩).dedup.countP
      (fun i => decide (1 <
        ([("bugfix", [0]), ("refactoring", [0]), ("unrelated", [0])] :
          List (String × List Int)).countP (fun p => p.2.contains i)))) = 1 ∧
    (2 : Nat) ≠ 1 := by decide

/-- C8 (amended): on well-formed input (nonempty labels, offsets inside the
content), `count_tangled_lines` returns, per hunk, the number of offset
occurrences minus the number of distinct offsets — an offset claimed by `k`
labels contributes `k - 1`, not exactly 1. -/
theorem count_tangled_lines_counts_repeats (hs : List Hunk) (ch : String)
    (hws : ∀ h ∈ hs, ∀ p ∈ h.lines_verified, p.1 ≠ "" ∧
      ∀ i ∈ p.2, 0 ≤ i ∧ i < (h.content.length : Int)) :
    count_tangled_lines hs ch =
      some ((hs.map (fun h =>
        (flatOffsets h).length - (flatOffsets h).dedup.length)).sum) := by
  have hmap : hs.map (fun h => countRepeats [] (flatOffsets h)) =
      hs.map (fun h => (flatOffsets h).length - (flatOffsets h).dedup.length) :=
    List.map_congr_left (fun h _ => countRepeats_nil_eq (flatOffsets h))
  rw [count_tangled_lines, ctlHunks_run hs hws 0, Nat.zero_add, hmap]

theorem count_tangled_lines_counts_repeats_witness :
    count_tangled_lines
      [⟨1, 1, 0, 0, ["- A", "- B"],
        [("bugfix", [0, 1]), ("refactoring", [0]), ("unrelated", [0])]⟩] "c" =
      some 2 :=
  (count_tangled_lines_counts_repeats
    [⟨1, 1, 0, 0, ["- A", "- B"],
      [("bugfix", [0, 1]), ("refactoring", [0]), ("unrelated", [0])]⟩] "c"
    (by decide)).trans (by decide)

theorem export_rows_pass_source_filter_witness :
    pyEndsWith "src/main/Foo.java" ".java" = true ∧
    pyEndsWith "src/main/Foo.java" "Test.java" = false ∧
    pyInStr "src/test" "src/main/Foo.java" = false :=
  export_rows_pass_source_filter
    ⟨some [("validated_bugfix", true)], ["p"],
      [⟨some "src/main/Foo.java", "src/main/Foo.java", "M",
        [⟨5, 5, 0, 0, ["- x"], [("bugfix", [0])]⟩]⟩]⟩
    [("src/main/Foo.java", ⟨some 5, none, "bugfix"⟩)]
    (by decide)
    ("src/main/Foo.java", ⟨some 5, none, "bugfix"⟩) (by decide)
